import Mathlib

set_option synthInstance.maxSize 1024

/-!
Verification of the network packet trace bundling engine
(`NetworkTraceHandler.cpp`) and the socket cookie helper (`BpfUtils.h`).

The C++ code is shallowly embedded: machine integers become `Nat` with
explicit reduction modulo `2^32` / `2^64` where overflow matters, the
external interface-name resolver (`if_indextoname`) is a parameter
`resolve : Nat -> Option String`, and the Perfetto sink is modelled by an
explicit list of emitted messages.
-/

/-- One decoded kernel packet event (struct `PacketTrace`).  Field widths in
the C++ struct: `timestampNs : u64`, `length : u32`, `ifindex/uid/tag : u32`,
`sport/dport : u16` (network byte order), `egress : bool`,
`ipProto/tcpFlags : u8`. -/
structure PacketTrace where
  timestampNs : Nat
  length : Nat
  ifindex : Nat
  uid : Nat
  tag : Nat
  sport : Nat
  dport : Nat
  egress : Bool
  ipProto : Nat
  tcpFlags : Nat
deriving DecidableEq

/-- Keys are `PacketTrace`s where timestamp and length are ignored
(`using BundleKey = PacketTrace`). -/
abbrev BundleKey := PacketTrace

/-- The eight context fields, in the order of the `AGG_FIELDS` macro:
`(x).ifindex, (x).uid, (x).tag, (x).sport, (x).dport, (x).egress,
(x).ipProto, (x).tcpFlags`. -/
def aggFields (x : PacketTrace) : Nat × Nat × Nat × Nat × Nat × Bool × Nat × Nat :=
  (x.ifindex, x.uid, x.tag, x.sport, x.dport, x.egress, x.ipProto, x.tcpFlags)

/-- `BundleEq::operator()`: `std::tie(AGG_FIELDS(a)) == std::tie(AGG_FIELDS(b))`. -/
def BundleEq (a b : BundleKey) : Bool :=
  decide (aggFields a = aggFields b)

/-- One step of `HashCombine` on a 64-bit `size_t`:
`seed ^= std::hash<T>()(val) + 0x9e3779b9 + (seed << 6) + (seed >> 2)`,
with `std::hash` the identity on integral values. -/
def hashCombineStep (seed v : Nat) : Nat :=
  (seed ^^^ ((v + 0x9e3779b9 + ((seed <<< 6) % 2 ^ 64) + (seed >>> 2)) % 2 ^ 64)) % 2 ^ 64

/-- `BundleHash::operator()`: fold `HashCombine` over `AGG_FIELDS(a)` starting
from seed 0; `std::hash<bool>` yields 0 or 1. -/
def BundleHash (a : BundleKey) : Nat :=
  [a.ifindex, a.uid, a.tag, a.sport, a.dport, cond a.egress 1 0, a.ipProto,
    a.tcpFlags].foldl hashCombineStep 0

/-- `ntohs` on a 16-bit value: swap the two bytes. -/
def ntohs (x : Nat) : Nat :=
  (x % 256) * 256 + (x / 256) % 256

/-- On 16-bit values, swapping the bytes twice is the identity:
`ntohs` really is the byte-order conversion. -/
theorem ntohs_ntohs (x : Nat) (h : x < 2 ^ 16) : ntohs (ntohs x) = x := by
  have hq : x / 256 < 256 := by omega
  have e1 : (x % 256 * 256 + x / 256 % 256) % 256 = x / 256 := by omega
  have e2 : (x % 256 * 256 + x / 256 % 256) / 256 = x % 256 := by omega
  unfold ntohs
  rw [e1, e2]
  omega

/-- The fields of a `NetworkPacketEvent` proto message set by
`NetworkTraceHandler::Fill`.  `direction` is `true` for `DIR_EGRESS`. -/
structure NetworkPacketEvent where
  direction : Bool
  uid : Nat
  tag : Nat
  local_port : Nat
  remote_port : Nat
  ip_proto : Nat
  tcp_flags : Nat
  interface : String
deriving DecidableEq

/-- `NetworkTraceHandler::Fill`, with `if_indextoname` abstracted as
`resolve`; on resolution failure the interface field is the literal
string "error". -/
def Fill (resolve : Nat → Option String) (src : PacketTrace) : NetworkPacketEvent :=
  { direction := src.egress
    uid := src.uid
    tag := src.tag
    local_port := if src.egress then ntohs src.sport else ntohs src.dport
    remote_port := if src.egress then ntohs src.dport else ntohs src.sport
    ip_proto := src.ipProto
    tcp_flags := src.tcpFlags
    interface :=
      match resolve src.ifindex with
      | some name => name
      | none => "error" }

/-- The raw `NetworkPacketTraceConfig` proto fields read by `OnSetup`. -/
structure NetworkTraceConfig where
  poll_ms : Nat
  intern_limit : Nat
  aggregation_threshold : Nat
  drop_local_port : Bool
  drop_remote_port : Bool
  drop_tcp_flags : Bool
deriving DecidableEq

/-- The handler member state written by `NetworkTraceHandler::OnSetup`. -/
structure HandlerState where
  mPollMs : Nat
  mInternLimit : Nat
  mAggregationThreshold : Nat
  mDropLocalPort : Bool
  mDropRemotePort : Bool
  mDropTcpFlags : Bool
deriving DecidableEq

/-- `NetworkTraceHandler::OnSetup`: copy the config fields, raising
`mPollMs` to 100 when it is below 100. -/
def OnSetup (config : NetworkTraceConfig) : HandlerState :=
  { mPollMs := if config.poll_ms < 100 then 100 else config.poll_ms
    mInternLimit := config.intern_limit
    mAggregationThreshold := config.aggregation_threshold
    mDropLocalPort := config.drop_local_port
    mDropRemotePort := config.drop_remote_port
    mDropTcpFlags := config.drop_tcp_flags }

/-- `BundleDetails`: per-group accumulator.  `minTs` starts at
`numeric_limits<uint64_t>::max()`, `maxTs` at 0, `bytes` is a `uint32_t`. -/
structure BundleDetails where
  time_and_len : List (Nat × Nat)
  minTs : Nat
  maxTs : Nat
  bytes : Nat
deriving DecidableEq

/-- Largest `uint64_t` value, the initial `minTs`. -/
def U64MAX : Nat := 2 ^ 64 - 1

/-- A default-constructed `BundleDetails`. -/
def emptyDetails : BundleDetails :=
  { time_and_len := [], minTs := U64MAX, maxTs := 0, bytes := 0 }

/-- The `(timestampNs, length)` pair of a packet. -/
def pairOf (p : PacketTrace) : Nat × Nat :=
  (p.timestampNs, p.length)

/-- The loop body of the bundling pass in `Write`:
append the packet's `(timestampNs, length)`, update `minTs`/`maxTs`, and add
`length` to `bytes` with `uint32_t` wraparound. -/
def addPacket (d : BundleDetails) (pkt : PacketTrace) : BundleDetails :=
  { time_and_len := d.time_and_len ++ [pairOf pkt]
    minTs := min d.minTs pkt.timestampNs
    maxTs := max d.maxTs pkt.timestampNs
    bytes := (d.bytes + pkt.length) % 2 ^ 32 }

/-- `bundles[pkt]` followed by the loop body: find the group whose key is
`BundleEq`-equal to `pkt` and update it, or append a fresh group keyed by
`pkt` itself.  This models `std::unordered_map` as an association list; the
map's iteration order is unspecified in C++, and every claim proved below is
invariant under reordering of the groups. -/
def insertPacket (m : List (BundleKey × BundleDetails)) (pkt : PacketTrace) :
    List (BundleKey × BundleDetails) :=
  match m with
  | [] => [(pkt, addPacket emptyDetails pkt)]
  | (k, d) :: rest =>
    if BundleEq k pkt then (k, addPacket d pkt) :: rest
    else (k, d) :: insertPacket rest pkt

/-- The first loop of the bundled branch of `Write`: group the whole batch. -/
def makeBundles (packets : List PacketTrace) : List (BundleKey × BundleDetails) :=
  packets.foldl insertPacket []

/-- An emitted trace packet: either a direct `network_packet` carrying its own
timestamp and length, or a `network_packet_bundle` with a context block and
the packed delta-timestamp and length sequences. -/
inductive TraceMsg where
  | direct (timestamp : Nat) (length : Nat) (event : NetworkPacketEvent) : TraceMsg
  | bundle (timestamp : Nat) (ctx : NetworkPacketEvent)
      (packet_timestamps : List Nat) (packet_lengths : List Nat) : TraceMsg
deriving DecidableEq

/-- Emission of one packet in the direct (fallback) branch of `Write`. -/
def emitDirect (resolve : Nat → Option String) (pkt : PacketTrace) : TraceMsg :=
  .direct pkt.timestampNs pkt.length (Fill resolve pkt)

/-- Emission of one group in the bundled branch of `Write`: timestamp is the
group's `minTs`, the context block is `Fill` of the key, and the packed
sequences append `kv.first - details.minTs` and `kv.second` in order. -/
def emitBundle (resolve : Nat → Option String) (kd : BundleKey × BundleDetails) :
    TraceMsg :=
  .bundle kd.2.minTs (Fill resolve kd.1)
    (kd.2.time_and_len.map fun pr => pr.1 - kd.2.minTs)
    (kd.2.time_and_len.map Prod.snd)

/-- `NetworkTraceHandler::Write`: when both `mInternLimit` and
`mAggregationThreshold` are zero, emit one direct message per packet in
order; otherwise group the batch and emit one bundle message per group. -/
def Write (st : HandlerState) (resolve : Nat → Option String)
    (packets : List PacketTrace) : List TraceMsg :=
  if st.mInternLimit == 0 && st.mAggregationThreshold == 0 then
    packets.map (emitDirect resolve)
  else
    (makeBundles packets).map (emitBundle resolve)

/-- The condition of the fallback branch, negated: bundling is used iff
`mInternLimit != 0 || mAggregationThreshold != 0`. -/
def bundlingEnabled (st : HandlerState) : Bool :=
  !(st.mInternLimit == 0 && st.mAggregationThreshold == 0)

/-- The `(timestamp, length)` pairs recoverable from one emitted message: a
direct message yields its own pair; a bundle yields each delta timestamp
added back to the message timestamp, zipped with the lengths. -/
def recoverPairs : TraceMsg → List (Nat × Nat)
  | .direct ts len _ => [(ts, len)]
  | .bundle ts _ offs lens => (offs.map fun o => o + ts).zip lens

/-- `NONEXISTENT_COOKIE` from `BpfUtils.h`. -/
def NONEXISTENT_COOKIE : Nat := 0

/-- Outcome of the `getsockopt(SOL_SOCKET, SO_COOKIE, ...)` call:
its return value, the `errno` it leaves behind, and the cookie it stored in
the out-buffer (meaningful only on success). -/
structure SockoptCall where
  ret : Int
  errnoAfter : Nat
  cookie : Nat
deriving DecidableEq

/-- `getSocketCookie` from `BpfUtils.h`, returning the pair
(function result, errno on return).  On failure the code saves
`res = -errno`, calls `ALOGE` (which may leave `errno` at an arbitrary value
`logClobber`), restores `errno = -res`, and returns `NONEXISTENT_COOKIE`. -/
def getSocketCookie (call : SockoptCall) (logClobber : Nat) : Nat × Nat :=
  if call.ret < 0 then
    let res : Int := -(call.errnoAfter : Int)
    let _errnoDuringLog : Nat := logClobber
    (NONEXISTENT_COOKIE, (-res).toNat)
  else
    (call.cookie, call.errnoAfter)

/-- A config with every drop flag set and bundling disabled. -/
def cfgDropAll : NetworkTraceConfig :=
  { poll_ms := 0, intern_limit := 0, aggregation_threshold := 0
    drop_local_port := true, drop_remote_port := true, drop_tcp_flags := true }

/-- A concrete egress packet: `sport = 256` and `dport = 512` in network
byte order, so host order 1 and 2; `tcpFlags = 2`. -/
def pktCtr : PacketTrace :=
  { timestampNs := 7, length := 100, ifindex := 3, uid := 1000, tag := 42
    sport := 256, dport := 512, egress := true, ipProto := 6, tcpFlags := 2 }

/-- Claim C4 counterexample: with every drop flag set by the configuration,
the message emitted by `Write` still carries a nonzero local port, a nonzero
remote port and nonzero tcp flags — the flags are stored by `OnSetup` but
never consulted by `Fill` or `Write`, so no field is omitted or zeroed. -/
theorem Fill_drop_flags_counterexample :
    (OnSetup cfgDropAll).mDropLocalPort = true ∧
    (OnSetup cfgDropAll).mDropRemotePort = true ∧
    (OnSetup cfgDropAll).mDropTcpFlags = true ∧
    Write (OnSetup cfgDropAll) (fun _ => none) [pktCtr] =
      [TraceMsg.direct 7 100
        { direction := true, uid := 1000, tag := 42, local_port := 1
          remote_port := 2, ip_proto := 6, tcp_flags := 2, interface := "error" }] ∧
    (Fill (fun _ => none) pktCtr).local_port ≠ 0 ∧
    (Fill (fun _ => none) pktCtr).remote_port ≠ 0 ∧
    (Fill (fun _ => none) pktCtr).tcp_flags ≠ 0 := by
  decide

/-- Claim C4 amended: the three drop flags are parsed and stored by
`OnSetup` but have no effect on emission — `Write` produces identical output
under any values of the stored flags, and `Fill` unconditionally writes the
local port, the remote port and the tcp flags of every record. -/
theorem Write_ignores_drop_flags (st : HandlerState)
    (resolve : Nat → Option String) (packets : List PacketTrace)
    (b₁ b₂ b₃ : Bool) :
    Write { st with mDropLocalPort := b₁
                    mDropRemotePort := b₂
                    mDropTcpFlags := b₃ } resolve packets
        = Write st resolve packets ∧
    (∀ src : PacketTrace,
      (Fill resolve src).local_port
          = (if src.egress then ntohs src.sport else ntohs src.dport) ∧
      (Fill resolve src).remote_port
          = (if src.egress then ntohs src.dport else ntohs src.sport) ∧
      (Fill resolve src).tcp_flags = src.tcpFlags) := by
  constructor
  · rfl
  · intro src
    exact ⟨rfl, rfl, rfl⟩

/-- Claim C9: the effective poll interval after `OnSetup` is
`max(poll_ms, 100)` for every configured value, including 0 (unset); values
below 100 are clamped, never rejected. -/
theorem OnSetup_clamp (config : NetworkTraceConfig) :
    (OnSetup config).mPollMs = max config.poll_ms 100 := by
  simp only [OnSetup]
  rcases Nat.lt_or_ge config.poll_ms 100 with h | h
  · simp [h, Nat.max_eq_right (Nat.le_of_lt h)]
  · simp [Nat.not_lt.mpr h, Nat.max_eq_left h]

/-- Claim C6: `Fill` writes the ports swapped by direction — for egress
packets the local port is `ntohs(sport)` and the remote port `ntohs(dport)`;
for ingress packets the local port is `ntohs(dport)` and the remote port
`ntohs(sport)`; and on 16-bit values `ntohs` is the byte-order involution. -/
theorem Fill_port_swap (resolve : Nat → Option String) (src : PacketTrace)
    (h16s : src.sport < 2 ^ 16) (h16d : src.dport < 2 ^ 16) :
    (src.egress = true →
      (Fill resolve src).local_port = ntohs src.sport ∧
      (Fill resolve src).remote_port = ntohs src.dport) ∧
    (src.egress = false →
      (Fill resolve src).local_port = ntohs src.dport ∧
      (Fill resolve src).remote_port = ntohs src.sport) ∧
    ntohs (ntohs src.sport) = src.sport ∧
    ntohs (ntohs src.dport) = src.dport := by
  refine ⟨fun he => ?_, fun he => ?_, ntohs_ntohs _ h16s, ntohs_ntohs _ h16d⟩
  · simp [Fill, he]
  · simp [Fill, he]

/-- Witness for `Fill_port_swap` at a concrete egress packet. -/
theorem Fill_port_swap_witness :
    (258 : Nat) < 2 ^ 16 ∧ (1 : Nat) < 2 ^ 16 ∧
    ((true = true →
      (Fill (fun _ => none)
        ⟨7, 100, 3, 1000, 42, 258, 1, true, 6, 2⟩).local_port = ntohs 258 ∧
      (Fill (fun _ => none)
        ⟨7, 100, 3, 1000, 42, 258, 1, true, 6, 2⟩).remote_port = ntohs 1) ∧
    (true = false →
      (Fill (fun _ => none)
        ⟨7, 100, 3, 1000, 42, 258, 1, true, 6, 2⟩).local_port = ntohs 1 ∧
      (Fill (fun _ => none)
        ⟨7, 100, 3, 1000, 42, 258, 1, true, 6, 2⟩).remote_port = ntohs 258) ∧
    ntohs (ntohs 258) = 258 ∧ ntohs (ntohs 1) = 1) :=
  ⟨by decide, by decide,
    Fill_port_swap (fun _ => none) ⟨7, 100, 3, 1000, 42, 258, 1, true, 6, 2⟩
      (by decide) (by decide)⟩

/-- Claim C8: when interface-name resolution fails, `Fill` writes the
sentinel string "error" and the message is still emitted: the number of
messages produced by `Write` does not depend on the resolver at all. -/
theorem Fill_resolution_sentinel (resolve : Nat → Option String)
    (src : PacketTrace) (hfail : resolve src.ifindex = none) :
    (Fill resolve src).interface = "error" ∧
    (∀ (st : HandlerState) (r₁ r₂ : Nat → Option String)
      (packets : List PacketTrace),
      (Write st r₁ packets).length = (Write st r₂ packets).length) := by
  constructor
  · simp [Fill, hfail]
  · intro st r₁ r₂ packets
    unfold Write
    by_cases h : (st.mInternLimit == 0 && st.mAggregationThreshold == 0) = true
    · simp [h]
    · simp [h]

/-- Witness for `Fill_resolution_sentinel` at a concrete packet whose
interface index resolves to nothing. -/
theorem Fill_resolution_sentinel_witness :
    ((fun _ => (none : Option String))
      (PacketTrace.ifindex ⟨7, 100, 3, 1000, 42, 258, 1, true, 6, 2⟩) = none) ∧
    ((Fill (fun _ => none) ⟨7, 100, 3, 1000, 42, 258, 1, true, 6, 2⟩).interface
        = "error" ∧
    (∀ (st : HandlerState) (r₁ r₂ : Nat → Option String)
      (packets : List PacketTrace),
      (Write st r₁ packets).length = (Write st r₂ packets).length)) :=
  ⟨rfl, Fill_resolution_sentinel (fun _ => none)
    ⟨7, 100, 3, 1000, 42, 258, 1, true, 6, 2⟩ rfl⟩

/-- Claim C10: `getSocketCookie` returns the cookie written by a successful
`getsockopt(SOL_SOCKET, SO_COOKIE)` call, and returns `NONEXISTENT_COOKIE`
(0) exactly when the call fails; on failure the returned `errno` is the
failing call's error code, whatever value the logging call left in `errno`
in between.  The "exactly" direction uses the kernel contract (noted in the
code: "0 is an invalid cookie, see sock_gen_cookie") that a successful call
never stores a zero cookie. -/
theorem getSocketCookie_spec (call : SockoptCall) (logClobber : Nat)
    (hker : 0 ≤ call.ret → call.cookie ≠ 0) :
    ((getSocketCookie call logClobber).1 = NONEXISTENT_COOKIE ↔ call.ret < 0) ∧
    (call.ret < 0 →
      getSocketCookie call logClobber = (NONEXISTENT_COOKIE, call.errnoAfter)) ∧
    (0 ≤ call.ret →
      getSocketCookie call logClobber = (call.cookie, call.errnoAfter)) := by
  unfold getSocketCookie
  by_cases h : call.ret < 0
  · simp [h, NONEXISTENT_COOKIE]
  · have h0 : 0 ≤ call.ret := Int.not_lt.mp h
    simp [h, NONEXISTENT_COOKIE, hker h0]

/-- Witness for `getSocketCookie_spec` at a concrete failing call (return
-1, errno 9 = EBADF) and with a log call that clobbers errno to 22. -/
theorem getSocketCookie_spec_witness :
    ((0 : Int) ≤ SockoptCall.ret ⟨-1, 9, 5⟩ → SockoptCall.cookie ⟨-1, 9, 5⟩ ≠ 0) ∧
    (((getSocketCookie ⟨-1, 9, 5⟩ 22).1 = NONEXISTENT_COOKIE ↔
        SockoptCall.ret ⟨-1, 9, 5⟩ < 0) ∧
    (SockoptCall.ret ⟨-1, 9, 5⟩ < 0 →
      getSocketCookie ⟨-1, 9, 5⟩ 22 = (NONEXISTENT_COOKIE, 9)) ∧
    (0 ≤ SockoptCall.ret ⟨-1, 9, 5⟩ →
      getSocketCookie ⟨-1, 9, 5⟩ 22 = (5, 9))) :=
  ⟨by decide, getSocketCookie_spec ⟨-1, 9, 5⟩ 22 (by decide)⟩

/-- `BundleEq` holds exactly when the eight `AGG_FIELDS` agree. -/
theorem BundleEq_iff (a b : BundleKey) :
    BundleEq a b = true ↔ aggFields a = aggFields b := by
  simp [BundleEq]

/-- `BundleEq` is reflexive. -/
theorem BundleEq_refl (a : BundleKey) : BundleEq a a = true := by
  simp [BundleEq]

/-- `aggFields` never looks at `timestampNs` or `length`. -/
theorem aggFields_irrelevant (a : PacketTrace) (ts len : Nat) :
    aggFields { a with timestampNs := ts, length := len } = aggFields a := rfl

/-- Keys agreeing on the eight context fields hash identically. -/
theorem BundleHash_congr (a b : BundleKey) (h : aggFields a = aggFields b) :
    BundleHash a = BundleHash b := by
  cases a
  cases b
  simp only [aggFields, Prod.mk.injEq] at h
  obtain ⟨h₁, h₂, h₃, h₄, h₅, h₆, h₇, h₈⟩ := h
  subst h₁ h₂ h₃ h₄ h₅ h₆ h₇ h₈
  rfl

/-- A left fold of `min` is a lower bound of the start value and of every
element of the list. -/
theorem foldl_min_le (l : List Nat) (M : Nat) :
    List.foldl min M l ≤ M ∧ ∀ t ∈ l, List.foldl min M l ≤ t := by
  induction l generalizing M with
  | nil => simp
  | cons a l ih =>
    have h := ih (min M a)
    refine ⟨le_trans h.1 (min_le_left _ _), fun t ht => ?_⟩
    rcases List.mem_cons.mp ht with rfl | ht
    · exact le_trans h.1 (min_le_right _ _)
    · exact h.2 t ht

/-- A left fold of `min` is the start value or one of the elements. -/
theorem foldl_min_choice (l : List Nat) (M : Nat) :
    List.foldl min M l = M ∨ List.foldl min M l ∈ l := by
  induction l generalizing M with
  | nil => exact Or.inl rfl
  | cons a l ih =>
    rcases ih (min M a) with h | h
    · rcases Nat.le_total M a with hma | hma
      · exact Or.inl (by rw [List.foldl_cons, h]; exact min_eq_left hma)
      · exact Or.inr (by rw [List.foldl_cons, h, min_eq_right hma]; exact
          List.mem_cons_self a l)
    · exact Or.inr (List.mem_cons_of_mem a h)

/-- A nonempty left fold of `min` whose elements are bounded by the start
value is attained by some element. -/
theorem foldl_min_mem (l : List Nat) (M : Nat) (hne : l ≠ [])
    (hb : ∀ t ∈ l, t ≤ M) : List.foldl min M l ∈ l := by
  rcases foldl_min_choice l M with h | h
  · obtain ⟨a, ha⟩ := List.exists_mem_of_ne_nil l hne
    have h₁ := (foldl_min_le l M).2 a ha
    have h₂ := hb a ha
    rw [h] at h₁ ⊢
    have : a = M := le_antisymm h₂ h₁
    rwa [← this]
  · exact h

/-- The bundling invariant tying the group map built so far to the prefix of
the batch already processed. -/
structure BundleInv (processed : List PacketTrace)
    (m : List (BundleKey × BundleDetails)) : Prop where
  keys : m.Pairwise fun x y => aggFields x.1 ≠ aggFields y.1
  samples : ∀ kd ∈ m, kd.2.time_and_len
      = (processed.filter fun q => BundleEq kd.1 q).map pairOf
  cover : ∀ q ∈ processed, ∃ kd ∈ m, BundleEq kd.1 q = true
  tsmin : ∀ kd ∈ m,
      kd.2.minTs = (kd.2.time_and_len.map Prod.fst).foldl min U64MAX
  byteSum : ∀ kd ∈ m,
      kd.2.bytes = (kd.2.time_and_len.map Prod.snd).sum % 2 ^ 32
  nonempty : ∀ kd ∈ m, kd.2.time_and_len ≠ []

/-- The empty state satisfies the invariant. -/
theorem BundleInv_nil : BundleInv [] [] := by
  constructor <;> simp

/-- When no existing key matches, `insertPacket` appends a fresh group. -/
theorem insertPacket_not_found (m : List (BundleKey × BundleDetails))
    (p : PacketTrace) (h : ∀ kd ∈ m, BundleEq kd.1 p = false) :
    insertPacket m p = m ++ [(p, addPacket emptyDetails p)] := by
  induction m with
  | nil => rfl
  | cons kd rest ih =>
    obtain ⟨k, d⟩ := kd
    have hk : BundleEq k p = false := h (k, d) (List.mem_cons_self _ _)
    simp only [insertPacket, hk, Bool.false_eq_true, if_false, List.cons_append,
      List.cons.injEq, true_and]
    exact ih fun kd hkd => h kd (List.mem_cons_of_mem _ hkd)

/-- When some key matches, `insertPacket` updates the first matching group in
place and leaves everything else untouched. -/
theorem insertPacket_found (m : List (BundleKey × BundleDetails))
    (p : PacketTrace) (h : ∃ kd ∈ m, BundleEq kd.1 p = true) :
    ∃ m₁ k d m₂, m = m₁ ++ (k, d) :: m₂ ∧ BundleEq k p = true ∧
      (∀ kd ∈ m₁, BundleEq kd.1 p = false) ∧
      insertPacket m p = m₁ ++ (k, addPacket d p) :: m₂ := by
  induction m with
  | nil => simp at h
  | cons kd rest ih =>
    obtain ⟨k₀, d₀⟩ := kd
    by_cases hk : BundleEq k₀ p = true
    · exact ⟨[], k₀, d₀, rest, rfl, hk, by simp, by simp [insertPacket, hk]⟩
    · have hrest : ∃ kd ∈ rest, BundleEq kd.1 p = true := by
        rcases h with ⟨kd, hmem, hkd⟩
        rcases List.mem_cons.mp hmem with rfl | hmem
        · exact absurd hkd hk
        · exact ⟨kd, hmem, hkd⟩
      obtain ⟨m₁, k, d, m₂, heq, hkp, hm₁, hins⟩ := ih hrest
      refine ⟨(k₀, d₀) :: m₁, k, d, m₂, by rw [heq]; rfl, hkp, ?_, ?_⟩
      · intro kd hkd
        rcases List.mem_cons.mp hkd with rfl | hkd
        · exact Bool.eq_false_iff.mpr hk
        · exact hm₁ kd hkd
      · have hk' : BundleEq k₀ p = false := Bool.eq_false_iff.mpr hk
        simp only [insertPacket, hk', Bool.false_eq_true, if_false,
          List.cons_append, List.cons.injEq, true_and]
        exact hins

/-- One step of the grouping loop preserves the bundling invariant. -/
theorem BundleInv_insert {processed : List PacketTrace}
    {m : List (BundleKey × BundleDetails)} (hInv : BundleInv processed m)
    (p : PacketTrace) : BundleInv (processed ++ [p]) (insertPacket m p) := by
  by_cases hf : ∃ kd ∈ m, BundleEq kd.1 p = true
  · obtain ⟨m₁, k, d, m₂, heq, hkp, hm₁, hins⟩ := insertPacket_found m p hf
    subst heq
    rw [hins]
    have hkdm : (k, d) ∈ m₁ ++ (k, d) :: m₂ := by simp
    have hkeys := hInv.keys
    rw [List.pairwise_append] at hkeys
    obtain ⟨hk₁, hk₂, hk₁₂⟩ := hkeys
    rw [List.pairwise_cons] at hk₂
    obtain ⟨hkm₂, hk₂tail⟩ := hk₂
    have hm₂ : ∀ kd ∈ m₂, BundleEq kd.1 p = false := by
      intro kd hkd
      apply Bool.eq_false_iff.mpr
      intro hkdp
      apply hkm₂ kd hkd
      rw [BundleEq_iff] at hkp hkdp
      rw [hkp, ← hkdp]
    constructor
    · rw [List.pairwise_append]
      refine ⟨hk₁, ?_, ?_⟩
      · rw [List.pairwise_cons]
        exact ⟨hkm₂, hk₂tail⟩
      · intro x hx y hy
        rcases List.mem_cons.mp hy with rfl | hy
        · exact hk₁₂ x hx (k, d) (List.mem_cons_self _ _)
        · exact hk₁₂ x hx y (List.mem_cons_of_mem _ hy)
    · intro kd hkd
      rcases List.mem_append.mp hkd with hkd | hkd
      · rw [hInv.samples kd (List.mem_append_left _ hkd), List.filter_append]
        simp [hm₁ kd hkd]
      · rcases List.mem_cons.mp hkd with rfl | hkd
        · have hs : d.time_and_len
              = (processed.filter fun q => BundleEq k q).map pairOf :=
            hInv.samples (k, d) hkdm
          show d.time_and_len ++ [pairOf p]
              = ((processed ++ [p]).filter fun q => BundleEq k q).map pairOf
          rw [List.filter_append]
          have h2 : [p].filter (fun q => BundleEq k q) = [p] := by simp [hkp]
          rw [h2, List.map_append, ← hs]
          rfl
        · rw [hInv.samples kd
            (List.mem_append_right _ (List.mem_cons_of_mem _ hkd)),
            List.filter_append]
          simp [hm₂ kd hkd]
    · intro q hq
      rcases List.mem_append.mp hq with hq | hq
      · obtain ⟨kd, hkdm', hkdq⟩ := hInv.cover q hq
        rcases List.mem_append.mp hkdm' with h1 | h1
        · exact ⟨kd, List.mem_append_left _ h1, hkdq⟩
        · rcases List.mem_cons.mp h1 with rfl | h1
          · exact ⟨(k, addPacket d p),
              List.mem_append_right _ (List.mem_cons_self _ _), hkdq⟩
          · exact ⟨kd,
              List.mem_append_right _ (List.mem_cons_of_mem _ h1), hkdq⟩
      · simp only [List.mem_singleton] at hq
        rw [hq]
        exact ⟨(k, addPacket d p),
          List.mem_append_right _ (List.mem_cons_self _ _), hkp⟩
    · intro kd hkd
      rcases List.mem_append.mp hkd with hkd | hkd
      · exact hInv.tsmin kd (List.mem_append_left _ hkd)
      · rcases List.mem_cons.mp hkd with rfl | hkd
        · have ht : d.minTs = (d.time_and_len.map Prod.fst).foldl min U64MAX :=
            hInv.tsmin (k, d) hkdm
          show min d.minTs p.timestampNs
              = ((d.time_and_len ++ [pairOf p]).map Prod.fst).foldl min U64MAX
          rw [List.map_append, List.foldl_append, ← ht]
          rfl
        · exact hInv.tsmin kd
            (List.mem_append_right _ (List.mem_cons_of_mem _ hkd))
    · intro kd hkd
      rcases List.mem_append.mp hkd with hkd | hkd
      · exact hInv.byteSum kd (List.mem_append_left _ hkd)
      · rcases List.mem_cons.mp hkd with rfl | hkd
        · have hb : d.bytes = (List.map Prod.snd d.time_and_len).sum % 2 ^ 32 :=
            hInv.byteSum (k, d) hkdm
          show (d.bytes + p.length) % 2 ^ 32
              = (List.map Prod.snd (d.time_and_len ++ [pairOf p])).sum % 2 ^ 32
          rw [List.map_append, List.sum_append, hb, Nat.mod_add_mod]
          simp [pairOf]
        · exact hInv.byteSum kd
            (List.mem_append_right _ (List.mem_cons_of_mem _ hkd))
    · intro kd hkd
      rcases List.mem_append.mp hkd with hkd | hkd
      · exact hInv.nonempty kd (List.mem_append_left _ hkd)
      · rcases List.mem_cons.mp hkd with rfl | hkd
        · simp [addPacket]
        · exact hInv.nonempty kd
            (List.mem_append_right _ (List.mem_cons_of_mem _ hkd))
  · have hnone : ∀ kd ∈ m, BundleEq kd.1 p = false := by
      intro kd hkd
      exact Bool.eq_false_iff.mpr fun hkd' => hf ⟨kd, hkd, hkd'⟩
    have hnoq : ∀ q ∈ processed, BundleEq p q = false := by
      intro q hq
      apply Bool.eq_false_iff.mpr
      intro hpq
      obtain ⟨kd, hkdm, hkdq⟩ := hInv.cover q hq
      apply hf
      refine ⟨kd, hkdm, ?_⟩
      rw [BundleEq_iff] at hkdq hpq ⊢
      rw [hkdq, ← hpq]
    rw [insertPacket_not_found m p hnone]
    constructor
    · rw [List.pairwise_append]
      refine ⟨hInv.keys, List.pairwise_singleton _ _, ?_⟩
      intro x hx y hy
      simp only [List.mem_singleton] at hy
      subst hy
      intro hcontra
      exact Bool.eq_false_iff.mp (hnone x hx) ((BundleEq_iff _ _).mpr hcontra)
    · intro kd hkd
      rcases List.mem_append.mp hkd with hkd | hkd
      · rw [hInv.samples kd hkd, List.filter_append]
        simp [hnone kd hkd]
      · simp only [List.mem_singleton] at hkd
        subst hkd
        show [] ++ [pairOf p] = _
        rw [List.filter_append]
        have h1 : processed.filter (fun q => BundleEq p q) = [] := by
          rw [List.filter_eq_nil_iff]
          intro q hq
          simp [hnoq q hq]
        have h2 : [p].filter (fun q => BundleEq p q) = [p] := by
          simp [BundleEq_refl]
        rw [h1, h2]
        rfl
    · intro q hq
      rcases List.mem_append.mp hq with hq | hq
      · obtain ⟨kd, hkdm, hkdq⟩ := hInv.cover q hq
        exact ⟨kd, List.mem_append_left _ hkdm, hkdq⟩
      · simp only [List.mem_singleton] at hq
        rw [hq]
        exact ⟨(p, addPacket emptyDetails p),
          List.mem_append_right _ (List.mem_singleton_self _), BundleEq_refl p⟩
    · intro kd hkd
      rcases List.mem_append.mp hkd with hkd | hkd
      · exact hInv.tsmin kd hkd
      · simp only [List.mem_singleton] at hkd
        subst hkd
        rfl
    · intro kd hkd
      rcases List.mem_append.mp hkd with hkd | hkd
      · exact hInv.byteSum kd hkd
      · simp only [List.mem_singleton] at hkd
        subst hkd
        simp [addPacket, emptyDetails, pairOf]
    · intro kd hkd
      rcases List.mem_append.mp hkd with hkd | hkd
      · exact hInv.nonempty kd hkd
      · simp only [List.mem_singleton] at hkd
        subst hkd
        simp [addPacket, emptyDetails]

/-- Folding the loop body over a batch extends the invariant. -/
theorem BundleInv_foldl (packets : List PacketTrace) :
    ∀ pre m, BundleInv pre m →
      BundleInv (pre ++ packets) (packets.foldl insertPacket m) := by
  induction packets with
  | nil =>
    intro pre m h
    simpa using h
  | cons p ps ih =>
    intro pre m h
    have h₂ := ih (pre ++ [p]) (insertPacket m p) (BundleInv_insert h p)
    simpa [List.append_assoc] using h₂

/-- The group map built from a whole batch satisfies the invariant. -/
theorem BundleInv_makeBundles (packets : List PacketTrace) :
    BundleInv packets (makeBundles packets) := by
  have h := BundleInv_foldl packets [] [] BundleInv_nil
  simpa using h

/-- Binding a function over a map composes. -/
theorem bind_map_comp {α β γ : Type} (l : List α) (g : α → β) (f : β → List γ) :
    (l.map g).flatMap f = l.flatMap fun a => f (g a) := by
  induction l with
  | nil => rfl
  | cons a t ih => simp only [List.map_cons, List.flatMap_cons, ih]

/-- Bind only depends on the function's values on members. -/
theorem bind_eq_of_mem {α β : Type} (l : List α) (f g : α → List β)
    (h : ∀ x ∈ l, f x = g x) : l.flatMap f = l.flatMap g := by
  induction l with
  | nil => rfl
  | cons a t ih =>
    simp only [List.flatMap_cons]
    rw [h a (List.mem_cons_self _ _), ih fun x hx => h x (List.mem_cons_of_mem _ hx)]

/-- One grouping step moves the packet's pair into exactly one group. -/
theorem insertPacket_pairs (m : List (BundleKey × BundleDetails))
    (p : PacketTrace) :
    ((insertPacket m p).flatMap fun kd => kd.2.time_and_len).Perm
      ((m.flatMap fun kd => kd.2.time_and_len) ++ [pairOf p]) := by
  induction m with
  | nil =>
    simp [insertPacket, addPacket, emptyDetails]
  | cons kd rest ih =>
    obtain ⟨k, d⟩ := kd
    by_cases hk : BundleEq k p = true
    · simp only [insertPacket, hk, if_true, List.flatMap_cons]
      show ((d.time_and_len ++ [pairOf p])
          ++ rest.flatMap fun kd => kd.2.time_and_len).Perm
        ((d.time_and_len ++ rest.flatMap fun kd => kd.2.time_and_len)
          ++ [pairOf p])
      rw [List.append_assoc, List.append_assoc]
      exact List.Perm.append_left _ List.perm_append_comm
    · have hk' : BundleEq k p = false := Bool.eq_false_iff.mpr hk
      simp only [insertPacket, hk', Bool.false_eq_true, if_false, List.flatMap_cons]
      rw [List.append_assoc]
      exact List.Perm.append_left _ ih

/-- The pairs stored across all groups are exactly the processed pairs. -/
theorem foldl_pairs (packets : List PacketTrace) :
    ∀ m, ((packets.foldl insertPacket m).flatMap fun kd => kd.2.time_and_len).Perm
      ((m.flatMap fun kd => kd.2.time_and_len) ++ packets.map pairOf) := by
  induction packets with
  | nil =>
    intro m
    simp
  | cons p ps ih =>
    intro m
    refine (ih (insertPacket m p)).trans ?_
    refine (List.Perm.append_right _ (insertPacket_pairs m p)).trans ?_
    rw [List.append_assoc, List.singleton_append]
    exact List.Perm.refl _

/-- The multiset of pairs across the groups of a batch is the multiset of
pairs of the batch. -/
theorem makeBundles_pairs (packets : List PacketTrace) :
    ((makeBundles packets).flatMap fun kd => kd.2.time_and_len).Perm
      (packets.map pairOf) := by
  have h := foldl_pairs packets []
  simpa using h

/-- Adding the bundle timestamp back to each emitted delta recovers exactly
the group's stored `(timestamp, length)` pairs. -/
theorem recoverPairs_emitBundle (resolve : Nat → Option String)
    (packets : List PacketTrace) (kd : BundleKey × BundleDetails)
    (hkd : kd ∈ makeBundles packets) :
    recoverPairs (emitBundle resolve kd) = kd.2.time_and_len := by
  have hmin : ∀ pr ∈ kd.2.time_and_len, kd.2.minTs ≤ pr.1 := by
    intro pr hpr
    have ht := (BundleInv_makeBundles packets).tsmin kd hkd
    rw [ht]
    exact (foldl_min_le _ _).2 pr.1 (List.mem_map_of_mem Prod.fst hpr)
  simp only [emitBundle, recoverPairs, List.map_map, List.zip_map']
  have hpt : ∀ pr ∈ kd.2.time_and_len,
      ((pr.1 - kd.2.minTs) + kd.2.minTs, pr.2) = pr := by
    intro pr hpr
    rw [Nat.sub_add_cancel (hmin pr hpr)]
  calc kd.2.time_and_len.map
        (fun pr => ((fun o => o + kd.2.minTs) ((fun pr => pr.1 - kd.2.minTs) pr),
          Prod.snd pr))
      = kd.2.time_and_len.map id := List.map_congr_left fun pr hpr => hpt pr hpr
    _ = kd.2.time_and_len := List.map_id _

/-- Claim C1: lossless coverage.  In both emission modes, the multiset of
`(timestamp, length)` pairs recoverable from the messages emitted by `Write`
equals the multiset of `(timestampNs, length)` pairs of the input batch. -/
theorem Write_lossless_coverage (st : HandlerState)
    (resolve : Nat → Option String) (packets : List PacketTrace) :
    (↑((Write st resolve packets).flatMap recoverPairs) : Multiset (Nat × Nat))
      = ↑(packets.map pairOf) := by
  rw [Multiset.coe_eq_coe]
  unfold Write
  by_cases h : (st.mInternLimit == 0 && st.mAggregationThreshold == 0) = true
  · rw [if_pos h]
    have hdir : (packets.map (emitDirect resolve)).flatMap recoverPairs
        = packets.map pairOf := by
      induction packets with
      | nil => rfl
      | cons p ps ih =>
        simp only [List.map_cons, List.flatMap_cons, ih]
        rfl
    rw [hdir]
  · rw [if_neg h]
    have hcong : ((makeBundles packets).map (emitBundle resolve)).flatMap recoverPairs
        = (makeBundles packets).flatMap fun kd => kd.2.time_and_len := by
      rw [bind_map_comp]
      exact bind_eq_of_mem _ _ _ fun kd hkd =>
        recoverPairs_emitBundle resolve packets kd hkd
    rw [hcong]
    exact makeBundles_pairs packets

/-- Claim C2: delta correctness.  In bundled mode `Write` emits one bundle
per group whose timestamp is the group's `minTs`; the group's stored samples
are exactly the batch's matching records in arrival order; `minTs` is
attained by some sample and bounds all of them; and index by index, the
emitted delta timestamp plus the message timestamp recovers the sample's
original timestamp while the emitted length is the sample's length. -/
theorem Write_delta_correctness (st : HandlerState)
    (resolve : Nat → Option String) (packets : List PacketTrace)
    (kd : BundleKey × BundleDetails) (hb : bundlingEnabled st = true)
    (h64 : ∀ p ∈ packets, p.timestampNs ≤ U64MAX)
    (hkd : kd ∈ makeBundles packets) :
    Write st resolve packets = (makeBundles packets).map (emitBundle resolve) ∧
    kd.2.time_and_len = (packets.filter fun q => BundleEq kd.1 q).map pairOf ∧
    kd.2.minTs ∈ kd.2.time_and_len.map Prod.fst ∧
    (∀ pr ∈ kd.2.time_and_len, kd.2.minTs ≤ pr.1) ∧
    (∀ i, i < kd.2.time_and_len.length →
      (kd.2.time_and_len.map fun pr => pr.1 - kd.2.minTs).getD i 0 + kd.2.minTs
          = (kd.2.time_and_len.getD i (0, 0)).1 ∧
      (kd.2.time_and_len.map Prod.snd).getD i 0
          = (kd.2.time_and_len.getD i (0, 0)).2) := by
  have inv := BundleInv_makeBundles packets
  have hmin_le : ∀ pr ∈ kd.2.time_and_len, kd.2.minTs ≤ pr.1 := by
    intro pr hpr
    rw [inv.tsmin kd hkd]
    exact (foldl_min_le _ _).2 pr.1 (List.mem_map_of_mem Prod.fst hpr)
  refine ⟨?_, inv.samples kd hkd, ?_, hmin_le, ?_⟩
  · have hb' : (!(st.mInternLimit == 0 && st.mAggregationThreshold == 0)) = true := hb
    have hcond : (st.mInternLimit == 0 && st.mAggregationThreshold == 0) = false := by
      cases h : st.mInternLimit == 0 && st.mAggregationThreshold == 0
      · rfl
      · rw [h] at hb'
        exact absurd hb' (by decide)
    simp [Write, hcond]
  · have ht := inv.tsmin kd hkd
    have hne : kd.2.time_and_len.map Prod.fst ≠ [] := by
      simpa using inv.nonempty kd hkd
    have hbound : ∀ t ∈ kd.2.time_and_len.map Prod.fst, t ≤ U64MAX := by
      intro t htm
      obtain ⟨pr, hpr, rfl⟩ := List.mem_map.mp htm
      have hs := inv.samples kd hkd
      rw [hs] at hpr
      obtain ⟨q, hq, rfl⟩ := List.mem_map.mp hpr
      exact h64 q (List.mem_of_mem_filter hq)
    rw [ht]
    exact foldl_min_mem _ _ hne hbound
  · intro i hi
    have hti : kd.2.time_and_len[i] ∈ kd.2.time_and_len := List.getElem_mem hi
    refine ⟨?_, ?_⟩
    · rw [List.getD_eq_getElem?_getD, List.getElem?_map,
        List.getElem?_eq_getElem hi, List.getD_eq_getElem?_getD,
        List.getElem?_eq_getElem hi]
      show (kd.2.time_and_len[i].1 - kd.2.minTs) + kd.2.minTs
          = kd.2.time_and_len[i].1
      exact Nat.sub_add_cancel (hmin_le _ hti)
    · rw [List.getD_eq_getElem?_getD, List.getElem?_map,
        List.getElem?_eq_getElem hi, List.getD_eq_getElem?_getD,
        List.getElem?_eq_getElem hi]
      rfl

/-- A config enabling bundling through a nonzero aggregation threshold. -/
def cfgBundle : NetworkTraceConfig :=
  { poll_ms := 100, intern_limit := 0, aggregation_threshold := 32
    drop_local_port := false, drop_remote_port := false, drop_tcp_flags := false }

/-- Concrete packets: `pktA` and `pktB` share all context fields, `pktC`
differs. -/
def pktA : PacketTrace :=
  { timestampNs := 1, length := 72, ifindex := 3, uid := 1000, tag := 123
    sport := 256, dport := 512, egress := true, ipProto := 6, tcpFlags := 2 }

/-- Same context as `pktA`, later timestamp and other length. -/
def pktB : PacketTrace :=
  { timestampNs := 2, length := 100, ifindex := 3, uid := 1000, tag := 123
    sport := 256, dport := 512, egress := true, ipProto := 6, tcpFlags := 2 }

/-- A packet with a different context. -/
def pktC : PacketTrace :=
  { timestampNs := 5, length := 456, ifindex := 4, uid := 2000, tag := 7
    sport := 256, dport := 512, egress := false, ipProto := 17, tcpFlags := 0 }

/-- The accumulated details of the `pktA`/`pktB` group. -/
def dAB : BundleDetails :=
  { time_and_len := [(1, 72), (2, 100)], minTs := 1, maxTs := 2, bytes := 172 }

/-- Witness for `Write_delta_correctness` on the concrete batch
`[pktA, pktB, pktC]` with bundling enabled, at the `pktA`/`pktB` group. -/
theorem Write_delta_correctness_witness :
    bundlingEnabled (OnSetup cfgBundle) = true ∧
    (∀ p ∈ [pktA, pktB, pktC], p.timestampNs ≤ U64MAX) ∧
    ((pktA, dAB) ∈ makeBundles [pktA, pktB, pktC]) ∧
    (Write (OnSetup cfgBundle) (fun _ => none) [pktA, pktB, pktC]
        = (makeBundles [pktA, pktB, pktC]).map (emitBundle fun _ => none) ∧
    (pktA, dAB).2.time_and_len
        = (([pktA, pktB, pktC].filter fun q => BundleEq (pktA, dAB).1 q).map pairOf) ∧
    (pktA, dAB).2.minTs ∈ (pktA, dAB).2.time_and_len.map Prod.fst ∧
    (∀ pr ∈ (pktA, dAB).2.time_and_len, (pktA, dAB).2.minTs ≤ pr.1) ∧
    (∀ i, i < (pktA, dAB).2.time_and_len.length →
      ((pktA, dAB).2.time_and_len.map
          fun pr => pr.1 - (pktA, dAB).2.minTs).getD i 0 + (pktA, dAB).2.minTs
          = ((pktA, dAB).2.time_and_len.getD i (0, 0)).1 ∧
      ((pktA, dAB).2.time_and_len.map Prod.snd).getD i 0
          = ((pktA, dAB).2.time_and_len.getD i (0, 0)).2)) :=
  ⟨by decide, by decide, by decide,
    Write_delta_correctness (OnSetup cfgBundle) (fun _ => none)
      [pktA, pktB, pktC] (pktA, dAB) (by decide) (by decide) (by decide)⟩

/-- Claim C7: for every group accumulated in bundled mode, the `bytes` field
is the sum of the group's sample lengths reduced modulo `2^32` (unsigned
32-bit wraparound). -/
theorem makeBundles_bytes_wrap (packets : List PacketTrace)
    (kd : BundleKey × BundleDetails) (hkd : kd ∈ makeBundles packets) :
    kd.2.bytes = (kd.2.time_and_len.map Prod.snd).sum % 2 ^ 32 :=
  (BundleInv_makeBundles packets).byteSum kd hkd

/-- A packet of the largest `uint32_t` length. -/
def pktW1 : PacketTrace :=
  { timestampNs := 1, length := 4294967295, ifindex := 3, uid := 1000, tag := 123
    sport := 256, dport := 512, egress := true, ipProto := 6, tcpFlags := 2 }

/-- A same-context packet of length 2, overflowing the group byte count. -/
def pktW2 : PacketTrace :=
  { timestampNs := 2, length := 2, ifindex := 3, uid := 1000, tag := 123
    sport := 256, dport := 512, egress := true, ipProto := 6, tcpFlags := 2 }

/-- The accumulated details of the wrapped group: `bytes` has wrapped to 1. -/
def dW : BundleDetails :=
  { time_and_len := [(1, 4294967295), (2, 2)], minTs := 1, maxTs := 2, bytes := 1 }

/-- Witness for `makeBundles_bytes_wrap` on a batch whose group byte count
wraps around: `4294967295 + 2` overflows to 1. -/
theorem makeBundles_bytes_wrap_witness :
    ((pktW1, dW) ∈ makeBundles [pktW1, pktW2]) ∧
    (pktW1, dW).2.bytes
      = ((pktW1, dW).2.time_and_len.map Prod.snd).sum % 2 ^ 32 :=
  ⟨by decide, makeBundles_bytes_wrap [pktW1, pktW2] (pktW1, dW) (by decide)⟩

/-- The number of distinct context keys appearing in a batch. -/
def distinctContexts (packets : List PacketTrace) : Nat :=
  ((packets.map aggFields).dedup).length

/-- The contexts of the group keys are exactly the contexts of the batch. -/
theorem makeBundles_ctx_mem (packets : List PacketTrace) (c :
    Nat × Nat × Nat × Nat × Nat × Bool × Nat × Nat) :
    (c ∈ (makeBundles packets).map fun kd => aggFields kd.1)
      ↔ c ∈ packets.map aggFields := by
  have inv := BundleInv_makeBundles packets
  constructor
  · intro hc
    obtain ⟨kd, hkd, rfl⟩ := List.mem_map.mp hc
    have hne := inv.nonempty kd hkd
    have hs := inv.samples kd hkd
    have hfil : (packets.filter fun q => BundleEq kd.1 q) ≠ [] := by
      intro h0
      rw [h0] at hs
      exact hne hs
    obtain ⟨q, hq⟩ := List.exists_mem_of_ne_nil _ hfil
    have hq' := List.mem_of_mem_filter hq
    have hqe : BundleEq kd.1 q = true := List.of_mem_filter hq
    rw [BundleEq_iff] at hqe
    rw [hqe]
    exact List.mem_map_of_mem aggFields hq'
  · intro hc
    obtain ⟨q, hq, rfl⟩ := List.mem_map.mp hc
    obtain ⟨kd, hkd, hkdq⟩ := inv.cover q hq
    rw [BundleEq_iff] at hkdq
    rw [← hkdq]
    exact List.mem_map_of_mem _ hkd

/-- The number of groups equals the number of distinct contexts. -/
theorem makeBundles_length (packets : List PacketTrace) :
    (makeBundles packets).length = distinctContexts packets := by
  have inv := BundleInv_makeBundles packets
  have h₁ : ((makeBundles packets).map fun kd => aggFields kd.1).Nodup := by
    show ((makeBundles packets).map fun kd => aggFields kd.1).Pairwise (· ≠ ·)
    rw [List.pairwise_map]
    exact inv.keys
  have h₂ : ((packets.map aggFields).dedup).Nodup := List.nodup_dedup _
  have hperm : ((makeBundles packets).map fun kd => aggFields kd.1).Perm
      ((packets.map aggFields).dedup) := by
    rw [List.perm_ext_iff_of_nodup h₁ h₂]
    intro c
    rw [List.mem_dedup]
    exact makeBundles_ctx_mem packets c
  calc (makeBundles packets).length
      = ((makeBundles packets).map fun kd => aggFields kd.1).length :=
        (List.length_map _ _).symm
    _ = ((packets.map aggFields).dedup).length := hperm.length_eq
    _ = distinctContexts packets := rfl

/-- Claim C3: threshold gating.  Bundling is enabled iff `mInternLimit` or
`mAggregationThreshold` is nonzero; with both zero `Write` emits exactly one
direct message per record, in arrival order; with bundling enabled `Write`
emits exactly one message per distinct context key observed in the batch. -/
theorem Write_threshold_gating (st : HandlerState)
    (resolve : Nat → Option String) (packets : List PacketTrace) :
    (bundlingEnabled st = true
      ↔ (st.mInternLimit ≠ 0 ∨ st.mAggregationThreshold ≠ 0)) ∧
    (bundlingEnabled st = false →
      Write st resolve packets = packets.map (emitDirect resolve) ∧
      (Write st resolve packets).length = packets.length) ∧
    (bundlingEnabled st = true →
      (Write st resolve packets).length = distinctContexts packets) := by
  refine ⟨?_, ?_, ?_⟩
  · simp [bundlingEnabled, not_and_or]
  · intro h
    have hcond : (st.mInternLimit == 0 && st.mAggregationThreshold == 0) = true := by
      have h' : (!(st.mInternLimit == 0 && st.mAggregationThreshold == 0)) = false := h
      cases hx : st.mInternLimit == 0 && st.mAggregationThreshold == 0
      · rw [hx] at h'
        exact absurd h' (by decide)
      · rfl
    refine ⟨by simp [Write, hcond], by simp [Write, hcond]⟩
  · intro h
    have h' : (!(st.mInternLimit == 0 && st.mAggregationThreshold == 0)) = true := h
    have hcond : (st.mInternLimit == 0 && st.mAggregationThreshold == 0) = false := by
      cases hx : st.mInternLimit == 0 && st.mAggregationThreshold == 0
      · rfl
      · rw [hx] at h'
        exact absurd h' (by decide)
    have hw : Write st resolve packets
        = (makeBundles packets).map (emitBundle resolve) := by
      simp [Write, hcond]
    rw [hw, List.length_map]
    exact makeBundles_length packets

/-- Witness for `Write_threshold_gating`: with bundling enabled the batch
`[pktA, pktB, pktC]` (two distinct contexts) yields as many messages as
distinct contexts; with bundling disabled it yields one message per record. -/
theorem Write_threshold_gating_witness :
    (Write (OnSetup cfgBundle) (fun _ => none) [pktA, pktB, pktC]).length
        = distinctContexts [pktA, pktB, pktC] ∧
    (Write (OnSetup cfgDropAll) (fun _ => none) [pktA, pktB, pktC]).length
        = ([pktA, pktB, pktC] : List PacketTrace).length :=
  ⟨(Write_threshold_gating (OnSetup cfgBundle) (fun _ => none)
      [pktA, pktB, pktC]).2.2 (by decide),
    ((Write_threshold_gating (OnSetup cfgDropAll) (fun _ => none)
      [pktA, pktB, pktC]).2.1 (by decide)).2⟩

/-- A list whose members pairwise never both satisfy `f`, but one of whose
members does satisfy `f`, has `countP f` equal to one. -/
theorem countP_eq_one_of_pairwise {α : Type} (l : List α) (f : α → Bool)
    (hpw : l.Pairwise fun x y => ¬(f x = true ∧ f y = true))
    (hex : ∃ x ∈ l, f x = true) : l.countP f = 1 := by
  induction l with
  | nil => simp at hex
  | cons a t ih =>
    rw [List.pairwise_cons] at hpw
    obtain ⟨ha, ht⟩ := hpw
    by_cases hfa : f a = true
    · have h0 : t.countP f = 0 := by
        rw [List.countP_eq_zero]
        intro x hx hfx
        exact ha x hx ⟨hfa, hfx⟩
      rw [List.countP_cons_of_pos _ _ hfa, h0]
    · rw [List.countP_cons_of_neg _ _ hfa]
      apply ih ht
      rcases hex with ⟨x, hx, hfx⟩
      rcases List.mem_cons.mp hx with rfl | hx
      · exact absurd hfx hfa
      · exact ⟨x, hx, hfx⟩

/-- Claim C5: partition correctness.  `BundleEq` compares exactly the eight
context fields and is a total equivalence relation; `BundleEq` and
`BundleHash` ignore `timestampNs` and `length`; `BundleEq`-equal keys hash
identically; every record of a batch belongs to exactly one group of
`makeBundles`; and two records share a group iff their eight context fields
agree. -/
theorem BundleEq_partition (packets : List PacketTrace) (p q : PacketTrace)
    (hp : p ∈ packets) (hq : q ∈ packets) :
    (∀ a b : BundleKey, BundleEq a b = true ↔ aggFields a = aggFields b) ∧
    Equivalence (fun a b : BundleKey => BundleEq a b = true) ∧
    (∀ a : PacketTrace, ∀ ts len : Nat,
      BundleEq { a with timestampNs := ts, length := len } a = true ∧
      BundleHash { a with timestampNs := ts, length := len } = BundleHash a) ∧
    (∀ a b : BundleKey, BundleEq a b = true → BundleHash a = BundleHash b) ∧
    ((makeBundles packets).countP fun kd => BundleEq kd.1 p) = 1 ∧
    ((∃ kd ∈ makeBundles packets,
        BundleEq kd.1 p = true ∧ BundleEq kd.1 q = true)
      ↔ aggFields p = aggFields q) := by
  have inv := BundleInv_makeBundles packets
  obtain ⟨kd₀, hkd₀, hkd₀p⟩ := inv.cover p hp
  refine ⟨BundleEq_iff, ?_, ?_, ?_, ?_, ?_⟩
  · refine ⟨fun a => BundleEq_refl a, ?_, ?_⟩
    · intro a b h
      rw [BundleEq_iff] at h ⊢
      exact h.symm
    · intro a b c hab hbc
      rw [BundleEq_iff] at hab hbc ⊢
      exact hab.trans hbc
  · intro a ts len
    refine ⟨?_, BundleHash_congr _ _ (aggFields_irrelevant a ts len)⟩
    rw [BundleEq_iff]
    exact aggFields_irrelevant a ts len
  · intro a b hab
    exact BundleHash_congr a b ((BundleEq_iff a b).mp hab)
  · apply countP_eq_one_of_pairwise
    · refine inv.keys.imp ?_
      intro x y hxy hboth
      obtain ⟨hx, hy⟩ := hboth
      rw [BundleEq_iff] at hx hy
      exact hxy (hx.trans hy.symm)
    · exact ⟨kd₀, hkd₀, hkd₀p⟩
  · constructor
    · rintro ⟨kd, hkd, hkp, hkq⟩
      rw [BundleEq_iff] at hkp hkq
      exact hkp.symm.trans hkq
    · intro hpq
      refine ⟨kd₀, hkd₀, hkd₀p, ?_⟩
      rw [BundleEq_iff] at hkd₀p ⊢
      exact hkd₀p.trans hpq

/-- Witness for `BundleEq_partition` on the batch `[pktA, pktB, pktC]` with
the same-context pair `pktA`, `pktB`. -/
theorem BundleEq_partition_witness :
    pktA ∈ [pktA, pktB, pktC] ∧ pktB ∈ [pktA, pktB, pktC] ∧
    ((∀ a b : BundleKey, BundleEq a b = true ↔ aggFields a = aggFields b) ∧
    Equivalence (fun a b : BundleKey => BundleEq a b = true) ∧
    (∀ a : PacketTrace, ∀ ts len : Nat,
      BundleEq { a with timestampNs := ts, length := len } a = true ∧
      BundleHash { a with timestampNs := ts, length := len } = BundleHash a) ∧
    (∀ a b : BundleKey, BundleEq a b = true → BundleHash a = BundleHash b) ∧
    ((makeBundles [pktA, pktB, pktC]).countP fun kd => BundleEq kd.1 pktA) = 1 ∧
    ((∃ kd ∈ makeBundles [pktA, pktB, pktC],
        BundleEq kd.1 pktA = true ∧ BundleEq kd.1 pktB = true)
      ↔ aggFields pktA = aggFields pktB)) :=
  ⟨by decide, by decide,
    BundleEq_partition [pktA, pktB, pktC] pktA pktB (by decide) (by decide)⟩
